import Mathlib

/-!
Verification of the balance-settlement computation of the dashboard page
(the expense-aggregation loop in DashboardPage.fetchData): expenses are
folded into a member-balance map, which is then turned into two totals and
a sorted settlement list.

Modelling choices:
- currency amounts are rationals;
- the JS Map of balances is an insertion-ordered association list
  (Map.set updates an existing key in place, otherwise appends; iteration
  follows insertion order);
- the JS String trim method is modelled on the character list of the
  string, removing ASCII whitespace from both ends;
- the stable Array sort with comparator (a, b) => b.amount - a.amount is
  modelled by a stable insertion sort into descending order.
-/

attribute [local semireducible] Rat.mul Rat.add Rat.sub Rat.inv

/-- Whitespace characters removed by the String trim method (ASCII part). -/
def isJsWhitespace (c : Char) : Bool :=
  c == ' ' || c == '\t' || c == '\n' || c == '\r' || c == '\x0b' || c == '\x0c'

/-- Remove leading and trailing whitespace from a character list. -/
def trimChars (l : List Char) : List Char :=
  ((l.dropWhile isJsWhitespace).reverse.dropWhile isJsWhitespace).reverse

/-- Model of the JS String trim method. -/
def jsTrim (s : String) : String := ⟨trimChars s.data⟩

/-- splitType of an expense: the enum with values equal and custom. -/
inductive SplitType where
  | equal
  | custom
deriving DecidableEq, Repr

/-- One entry of split_details: a member name and that member's owed share. -/
structure SplitDetail where
  member : String
  amount : ℚ
deriving DecidableEq, Repr

/-- An expense record as consumed by the dashboard aggregation.  The field
members models expense.group.members. -/
structure Expense where
  amount : ℚ
  paid_by : String
  split_type : SplitType
  split_details : Option (List SplitDetail)
  members : List String
  settled : Bool
deriving DecidableEq, Repr

/-- Direction of a settlement entry (type field of Settlement). -/
inductive SettlementType where
  | owed
  | owing
deriving DecidableEq, Repr

/-- One settlement entry: name, absolute amount and direction. -/
structure Settlement where
  name : String
  amount : ℚ
  type : SettlementType
deriving DecidableEq, Repr

/-- Balance lookup with default zero: memberBalances.get(k) || 0. -/
def mapGetD (m : List (String × ℚ)) (k : String) : ℚ :=
  match m with
  | [] => 0
  | (k₁, v) :: rest => if k₁ = k then v else mapGetD rest k

/-- Model of JS Map.set: update an existing key in place (keeping its
insertion position), otherwise append the new key at the end. -/
def mapSet (m : List (String × ℚ)) (k : String) (v : ℚ) : List (String × ℚ) :=
  match m with
  | [] => [(k, v)]
  | (k₁, v₁) :: rest => if k₁ = k then (k, v) :: rest else (k₁, v₁) :: mapSet rest k v

/-- Body of the Equal-split member loop: skip the viewer; if the viewer paid,
credit the member by the share; else if the member is the payer, debit it. -/
def equalStep (viewer paidBy : String) (isPayer : Bool) (share : ℚ)
    (acc : List (String × ℚ)) (member : String) : List (String × ℚ) :=
  if jsTrim member = jsTrim viewer then acc
  else if isPayer then
    mapSet acc (jsTrim member) (mapGetD acc (jsTrim member) + share)
  else if jsTrim paidBy = jsTrim member then
    mapSet acc (jsTrim member) (mapGetD acc (jsTrim member) - share)
  else acc

/-- Body of the Custom-split loop when the viewer paid: credit every split
member other than the viewer by that split amount. -/
def customPayerStep (viewer : String) (acc : List (String × ℚ))
    (split : SplitDetail) : List (String × ℚ) :=
  if jsTrim split.member ≠ jsTrim viewer then
    mapSet acc (jsTrim split.member) (mapGetD acc (jsTrim split.member) + split.amount)
  else acc

/-- Body of the Custom-split loop when someone else paid: for a split entry
belonging to the viewer, debit the payer by that split amount. -/
def customOtherStep (viewer payerName : String) (acc : List (String × ℚ))
    (split : SplitDetail) : List (String × ℚ) :=
  if jsTrim split.member = jsTrim viewer then
    mapSet acc payerName (mapGetD acc payerName - split.amount)
  else acc

/-- Fold one expense into the balance map: the body of the expenses.forEach
loop of DashboardPage.fetchData. -/
def processExpense (viewer : String) (m : List (String × ℚ)) (e : Expense) :
    List (String × ℚ) :=
  if e.settled then m
  else
    match e.split_type with
    | .equal =>
      e.members.foldl
        (equalStep viewer e.paid_by (e.paid_by == viewer)
          (e.amount / (e.members.length : ℚ))) m
    | .custom =>
      match e.split_details with
      | none => m
      | some details =>
        if e.paid_by == viewer then
          details.foldl (customPayerStep viewer) m
        else
          details.foldl (customOtherStep viewer (jsTrim e.paid_by)) m

/-- The whole balance map of one aggregation run. -/
def computeBalances (expenses : List Expense) (viewer : String) :
    List (String × ℚ) :=
  expenses.foldl (processExpense viewer) []

/-- Body of the memberBalances.forEach loop: push a settlement entry for a
non-zero balance and add it to the matching total.  The state is
(settlementsArray, totalOwe, totalOwed). -/
def settleStep (st : List Settlement × ℚ × ℚ) (p : String × ℚ) :
    List Settlement × ℚ × ℚ :=
  if p.2 ≠ 0 then
    (st.1 ++ [⟨p.1, |p.2|, if 0 < p.2 then .owed else .owing⟩],
     if 0 < p.2 then st.2.1 else st.2.1 + |p.2|,
     if 0 < p.2 then st.2.2 + p.2 else st.2.2)
  else st

/-- Run the settlement loop over the balance map. -/
def settlePhase (m : List (String × ℚ)) : List Settlement × ℚ × ℚ :=
  m.foldl settleStep ([], 0, 0)

/-- Stable insertion into a descending-sorted settlement list. -/
def insertDesc (x : Settlement) : List Settlement → List Settlement
  | [] => [x]
  | y :: ys => if y.amount ≤ x.amount then x :: y :: ys else y :: insertDesc x ys

/-- Stable descending sort by amount: the model of the stable Array sort
with comparator (a, b) => b.amount - a.amount. -/
def sortDesc : List Settlement → List Settlement
  | [] => []
  | x :: xs => insertDesc x (sortDesc xs)

/-- The dashboard aggregation: balances, then totals and the sorted
settlement list.  Returns (totalOwedToViewer, totalViewerOwes, settlements),
that is (youreOwed, youOwe, settlements) in the page state. -/
def computeSettlements (expenses : List Expense) (viewer : String) :
    ℚ × ℚ × List Settlement :=
  let st := settlePhase (computeBalances expenses viewer)
  (st.2.2, st.2.1, sortDesc st.1)

/-- Sum of the strictly positive balance values of a balance map. -/
def sumPos (m : List (String × ℚ)) : ℚ :=
  ((m.filter (fun p => 0 < p.2)).map (fun p => p.2)).sum

/-- Sum of the absolute values of the strictly negative balance values. -/
def sumNegAbs (m : List (String × ℚ)) : ℚ :=
  ((m.filter (fun p => p.2 < 0)).map (fun p => |p.2|)).sum

/-- One settlement entry per non-zero balance entry, in encounter order. -/
def settlementsOf (m : List (String × ℚ)) : List Settlement :=
  (m.filter (fun p => p.2 ≠ 0)).map
    (fun p => ⟨p.1, |p.2|, if 0 < p.2 then .owed else .owing⟩)

/-- The Alice example: a 30-unit Equal-split expense paid by the viewer in a
three-member group. -/
def exAlice : Expense :=
  ⟨30, "Alice", .equal, none, ["Alice", "Bob", "Carol"], false⟩

/-- The Dave example: a 50-unit Custom-split expense paid by Dave, with a
20-unit share for Alice and a 30-unit share for Dave. -/
def exDave : Expense :=
  ⟨50, "Dave", .custom, some [⟨"Alice", 20⟩, ⟨"Dave", 30⟩], ["Alice", "Dave"], false⟩

theorem mapGetD_set_self (m : List (String × ℚ)) (k : String) (v : ℚ) :
    mapGetD (mapSet m k v) k = v := by
  induction m with
  | nil => simp [mapSet, mapGetD]
  | cons p rest ih =>
    obtain ⟨k₁, v₁⟩ := p
    by_cases h : k₁ = k
    · simp [mapSet, h, mapGetD]
    · simp [mapSet, h, mapGetD, ih]

theorem mapGetD_set_ne (m : List (String × ℚ)) (k : String) (v : ℚ) (k₂ : String)
    (h : k₂ ≠ k) : mapGetD (mapSet m k v) k₂ = mapGetD m k₂ := by
  induction m with
  | nil => simp [mapSet, mapGetD, Ne.symm h]
  | cons p rest ih =>
    obtain ⟨k₁, v₁⟩ := p
    by_cases h₁ : k₁ = k
    · subst h₁; simp [mapSet, mapGetD, Ne.symm h]
    · simp [mapSet, h₁, mapGetD, ih]

theorem mem_mapSet (m : List (String × ℚ)) (k : String) (v : ℚ)
    (k₂ : String) (v₂ : ℚ) (h : (k₂, v₂) ∈ mapSet m k v) :
    k₂ = k ∨ (k₂, v₂) ∈ m := by
  induction m with
  | nil => simp [mapSet] at h; exact Or.inl h.1
  | cons p rest ih =>
    obtain ⟨k₁, v₁⟩ := p
    by_cases h₁ : k₁ = k
    · rw [mapSet, if_pos h₁] at h
      rcases List.mem_cons.mp h with h₂ | h₂
      · exact Or.inl (congrArg Prod.fst h₂)
      · exact Or.inr (List.mem_cons_of_mem _ h₂)
    · rw [mapSet, if_neg h₁] at h
      rcases List.mem_cons.mp h with h₂ | h₂
      · exact Or.inr (List.mem_cons.mpr (Or.inl h₂))
      · rcases ih h₂ with h₃ | h₃
        · exact Or.inl h₃
        · exact Or.inr (List.mem_cons_of_mem _ h₃)

theorem dropWhile_dropWhile {α : Type} (p : α → Bool) (l : List α) :
    (l.dropWhile p).dropWhile p = l.dropWhile p := by
  induction l with
  | nil => rfl
  | cons a t ih =>
    by_cases h : p a
    · simp [List.dropWhile_cons, h, ih]
    · simp [List.dropWhile_cons, h]

theorem dropWhile_head_false {α : Type} (p : α → Bool) (l : List α) (a : α)
    (t : List α) (h : l.dropWhile p = a :: t) : p a = false := by
  induction l with
  | nil => simp [List.dropWhile] at h
  | cons b r ih =>
    by_cases hb : p b
    · rw [List.dropWhile_cons, if_pos hb] at h; exact ih h
    · rw [List.dropWhile_cons, if_neg hb] at h
      cases h
      simpa using hb

theorem dropWhile_eq_self_of_head {α : Type} (p : α → Bool) (l : List α)
    (h : ∀ a t, l = a :: t → p a = false) : l.dropWhile p = l := by
  cases l with
  | nil => rfl
  | cons a t =>
    rw [List.dropWhile_cons, if_neg]
    simp [h a t rfl]

theorem dropWhile_append_eq {α : Type} [DecidableEq α] (p : α → Bool) (l₁ l₂ : List α) :
    (l₁ ++ l₂).dropWhile p =
      if l₁.dropWhile p = [] then l₂.dropWhile p else l₁.dropWhile p ++ l₂ := by
  induction l₁ with
  | nil => simp
  | cons a t ih =>
    by_cases h : p a
    · simpa [List.dropWhile_cons, h] using ih
    · simp [List.dropWhile_cons, h]

theorem exists_append_last_of_dropWhile {α : Type} [DecidableEq α] (p : α → Bool) (l : List α)
    (a : α) (ha : p a = false) : ∃ c, (l ++ [a]).dropWhile p = c ++ [a] := by
  rw [dropWhile_append_eq]
  by_cases hc : l.dropWhile p = []
  · refine ⟨[], ?_⟩
    rw [if_pos hc, List.dropWhile_cons, if_neg (by simp [ha])]
    simp
  · exact ⟨l.dropWhile p, by rw [if_neg hc]⟩

theorem trimChars_idem (l : List Char) : trimChars (trimChars l) = trimChars l := by
  have h1 : (trimChars l).dropWhile isJsWhitespace = trimChars l := by
    apply dropWhile_eq_self_of_head
    intro x t hxt
    cases ha : l.dropWhile isJsWhitespace with
    | nil =>
      rw [trimChars, ha] at hxt
      simp at hxt
    | cons ah tl =>
      have hah : isJsWhitespace ah = false := dropWhile_head_false _ l ah tl ha
      obtain ⟨c, hc⟩ := exists_append_last_of_dropWhile isJsWhitespace tl.reverse ah hah
      have hform : trimChars l = ah :: c.reverse := by
        rw [trimChars, ha, List.reverse_cons, hc]
        simp
      rw [hform] at hxt
      cases hxt
      exact hah
  have h2 : (trimChars l).reverse.dropWhile isJsWhitespace = (trimChars l).reverse := by
    simp only [trimChars, List.reverse_reverse]
    exact dropWhile_dropWhile _ _
  show (((trimChars l).dropWhile isJsWhitespace).reverse.dropWhile isJsWhitespace).reverse
      = trimChars l
  rw [h1, h2, List.reverse_reverse]

theorem jsTrim_idem (s : String) : jsTrim (jsTrim s) = jsTrim s := by
  simp only [jsTrim]
  exact congrArg String.mk (trimChars_idem s.data)

theorem foldl_eq_self {α β : Type} (f : β → α → β) (l : List α)
    (hf : ∀ acc a, a ∈ l → f acc a = acc) : ∀ acc, l.foldl f acc = acc := by
  induction l with
  | nil => intro acc; rfl
  | cons a t ih =>
    intro acc
    rw [List.foldl_cons, hf acc a (List.mem_cons_self a t)]
    exact ih (fun acc b hb => hf acc b (List.mem_cons_of_mem a hb)) acc

theorem foldl_preserves {α β : Type} (f : β → α → β) (P : β → Prop) (l : List α)
    (hf : ∀ acc a, a ∈ l → P acc → P (f acc a)) :
    ∀ acc, P acc → P (l.foldl f acc) := by
  induction l with
  | nil => intro acc h; exact h
  | cons a t ih =>
    intro acc h
    rw [List.foldl_cons]
    exact ih (fun acc b hb => hf acc b (List.mem_cons_of_mem a hb)) _
      (hf acc a (List.mem_cons_self a t) h)

theorem equalFold_payer_getD (viewer paidBy : String) (share : ℚ)
    (members : List String) :
    ∀ (acc : List (String × ℚ)) (key : String),
      mapGetD (members.foldl (equalStep viewer paidBy true share) acc) key =
        mapGetD acc key +
          ((members.filter (fun mem =>
              jsTrim mem = key ∧ jsTrim mem ≠ jsTrim viewer)).length : ℚ) * share := by
  induction members with
  | nil => intro acc key; simp
  | cons mem rest ih =>
    intro acc key
    rw [List.foldl_cons]
    by_cases h₁ : jsTrim mem = jsTrim viewer
    · have hstep : equalStep viewer paidBy true share acc mem = acc := by
        simp [equalStep, h₁]
      rw [hstep, ih, List.filter_cons]
      simp [h₁]
    · have hstep : equalStep viewer paidBy true share acc mem =
          mapSet acc (jsTrim mem) (mapGetD acc (jsTrim mem) + share) := by
        simp [equalStep, h₁]
      rw [hstep, ih, List.filter_cons]
      by_cases h₂ : jsTrim mem = key
      · subst h₂
        rw [mapGetD_set_self, if_pos (by simp [h₁]), List.length_cons]
        push_cast
        ring
      · rw [mapGetD_set_ne _ _ _ _ (fun hh => h₂ hh.symm)]
        simp [h₂]

theorem equalFold_other_getD (viewer paidBy : String) (share : ℚ)
    (members : List String) :
    ∀ (acc : List (String × ℚ)) (key : String),
      mapGetD (members.foldl (equalStep viewer paidBy false share) acc) key =
        mapGetD acc key -
          ((members.filter (fun mem =>
              jsTrim mem = key ∧ jsTrim mem ≠ jsTrim viewer ∧
                jsTrim paidBy = jsTrim mem)).length : ℚ) * share := by
  induction members with
  | nil => intro acc key; simp
  | cons mem rest ih =>
    intro acc key
    rw [List.foldl_cons]
    by_cases h₁ : jsTrim mem = jsTrim viewer
    · have hstep : equalStep viewer paidBy false share acc mem = acc := by
        simp [equalStep, h₁]
      rw [hstep, ih, List.filter_cons]
      simp [h₁]
    · by_cases h₃ : jsTrim paidBy = jsTrim mem
      · have hstep : equalStep viewer paidBy false share acc mem =
            mapSet acc (jsTrim mem) (mapGetD acc (jsTrim mem) - share) := by
          simp [equalStep, h₁, h₃]
        rw [hstep, ih, List.filter_cons]
        by_cases h₂ : jsTrim mem = key
        · subst h₂
          rw [mapGetD_set_self, if_pos (by simp [h₁, h₃]), List.length_cons]
          push_cast
          ring
        · rw [mapGetD_set_ne _ _ _ _ (fun hh => h₂ hh.symm)]
          simp [h₂]
      · have hstep : equalStep viewer paidBy false share acc mem = acc := by
          simp [equalStep, h₁, h₃]
        rw [hstep, ih, List.filter_cons]
        simp [h₃]

theorem customPayerFold_getD (viewer : String) (details : List SplitDetail) :
    ∀ (acc : List (String × ℚ)) (key : String),
      mapGetD (details.foldl (customPayerStep viewer) acc) key =
        mapGetD acc key +
          ((details.filter (fun s =>
              jsTrim s.member = key ∧ jsTrim s.member ≠ jsTrim viewer)).map
            (fun s => s.amount)).sum := by
  induction details with
  | nil => intro acc key; simp
  | cons s rest ih =>
    intro acc key
    rw [List.foldl_cons]
    by_cases h₁ : jsTrim s.member = jsTrim viewer
    · have hstep : customPayerStep viewer acc s = acc := by
        simp [customPayerStep, h₁]
      rw [hstep, ih, List.filter_cons]
      simp [h₁]
    · have hstep : customPayerStep viewer acc s =
          mapSet acc (jsTrim s.member) (mapGetD acc (jsTrim s.member) + s.amount) := by
        simp [customPayerStep, h₁]
      rw [hstep, ih, List.filter_cons]
      by_cases h₂ : jsTrim s.member = key
      · subst h₂
        rw [mapGetD_set_self, if_pos (by simp [h₁]), List.map_cons, List.sum_cons]
        ring
      · rw [mapGetD_set_ne _ _ _ _ (fun hh => h₂ hh.symm)]
        simp [h₂]

theorem customOtherFold_getD_payer (viewer payerName : String)
    (details : List SplitDetail) :
    ∀ (acc : List (String × ℚ)),
      mapGetD (details.foldl (customOtherStep viewer payerName) acc) payerName =
        mapGetD acc payerName -
          ((details.filter (fun s => jsTrim s.member = jsTrim viewer)).map
            (fun s => s.amount)).sum := by
  induction details with
  | nil => intro acc; simp
  | cons s rest ih =>
    intro acc
    rw [List.foldl_cons]
    by_cases h₁ : jsTrim s.member = jsTrim viewer
    · have hstep : customOtherStep viewer payerName acc s =
          mapSet acc payerName (mapGetD acc payerName - s.amount) := by
        simp [customOtherStep, h₁]
      rw [hstep, ih, List.filter_cons, mapGetD_set_self,
        if_pos (by simp [h₁]), List.map_cons, List.sum_cons]
      ring
    · have hstep : customOtherStep viewer payerName acc s = acc := by
        simp [customOtherStep, h₁]
      rw [hstep, ih, List.filter_cons]
      simp [h₁]

theorem customOtherFold_getD_ne (viewer payerName : String)
    (details : List SplitDetail) (key : String) (hk : key ≠ payerName) :
    ∀ (acc : List (String × ℚ)),
      mapGetD (details.foldl (customOtherStep viewer payerName) acc) key =
        mapGetD acc key := by
  induction details with
  | nil => intro acc; rfl
  | cons s rest ih =>
    intro acc
    rw [List.foldl_cons]
    by_cases h₁ : jsTrim s.member = jsTrim viewer
    · have hstep : customOtherStep viewer payerName acc s =
          mapSet acc payerName (mapGetD acc payerName - s.amount) := by
        simp [customOtherStep, h₁]
      rw [hstep, ih, mapGetD_set_ne _ _ _ _ hk]
    · have hstep : customOtherStep viewer payerName acc s = acc := by
        simp [customOtherStep, h₁]
      rw [hstep, ih]

theorem settleFold_char (m : List (String × ℚ)) :
    ∀ (arr : List Settlement) (owe owed : ℚ),
      m.foldl settleStep (arr, owe, owed) =
        (arr ++ settlementsOf m, owe + sumNegAbs m, owed + sumPos m) := by
  induction m with
  | nil =>
    intro arr owe owed
    simp [settlementsOf, sumNegAbs, sumPos]
  | cons p rest ih =>
    intro arr owe owed
    obtain ⟨k, v⟩ := p
    rw [List.foldl_cons]
    by_cases hv : v = 0
    · subst hv
      have hstep : settleStep (arr, owe, owed) (k, 0) = (arr, owe, owed) := by
        simp [settleStep]
      rw [hstep, ih]
      simp [settlementsOf, sumNegAbs, sumPos, List.filter_cons]
    · by_cases hpos : 0 < v
      · have hstep : settleStep (arr, owe, owed) (k, v) =
            (arr ++ [⟨k, |v|, .owed⟩], owe, owed + v) := by
          simp [settleStep, hv, hpos]
        have h1 : settlementsOf ((k, v) :: rest) =
            (⟨k, |v|, .owed⟩ : Settlement) :: settlementsOf rest := by
          simp [settlementsOf, List.filter_cons, hv, hpos]
        have h2 : sumNegAbs ((k, v) :: rest) = sumNegAbs rest := by
          simp [sumNegAbs, List.filter_cons, lt_asymm hpos]
        have h3 : sumPos ((k, v) :: rest) = v + sumPos rest := by
          simp [sumPos, List.filter_cons, hpos]
        rw [hstep, ih, h1, h2, h3]
        simp only [Prod.mk.injEq]
        exact ⟨by simp, trivial, by ring⟩
      · have hneg : v < 0 := lt_of_le_of_ne (not_lt.mp hpos) hv
        have hstep : settleStep (arr, owe, owed) (k, v) =
            (arr ++ [⟨k, |v|, .owing⟩], owe + |v|, owed) := by
          simp [settleStep, hv, hpos]
        have h1 : settlementsOf ((k, v) :: rest) =
            (⟨k, |v|, .owing⟩ : Settlement) :: settlementsOf rest := by
          simp [settlementsOf, List.filter_cons, hv, hpos]
        have h2 : sumNegAbs ((k, v) :: rest) = |v| + sumNegAbs rest := by
          simp [sumNegAbs, List.filter_cons, hneg]
        have h3 : sumPos ((k, v) :: rest) = sumPos rest := by
          simp [sumPos, List.filter_cons, hpos]
        rw [hstep, ih, h1, h2, h3]
        simp only [Prod.mk.injEq]
        exact ⟨by simp, by ring, trivial⟩

theorem perm_insertDesc (x : Settlement) (l : List Settlement) :
    (insertDesc x l).Perm (x :: l) := by
  induction l with
  | nil => exact List.Perm.refl _
  | cons z t ih =>
    rw [insertDesc]
    by_cases h : z.amount ≤ x.amount
    · rw [if_pos h]
    · rw [if_neg h]
      exact (ih.cons z).trans (List.Perm.swap x z t)

theorem perm_sortDesc (l : List Settlement) : (sortDesc l).Perm l := by
  induction l with
  | nil => exact List.Perm.refl _
  | cons x t ih =>
    rw [sortDesc]
    exact (perm_insertDesc x (sortDesc t)).trans (ih.cons x)

theorem pairwise_insertDesc (x : Settlement) (l : List Settlement)
    (h : List.Pairwise (fun a b => b.amount ≤ a.amount) l) :
    List.Pairwise (fun a b => b.amount ≤ a.amount) (insertDesc x l) := by
  induction l with
  | nil => simp [insertDesc]
  | cons z t ih =>
    rw [insertDesc]
    rcases List.pairwise_cons.mp h with ⟨hz, ht⟩
    by_cases hc : z.amount ≤ x.amount
    · rw [if_pos hc]
      refine List.pairwise_cons.mpr ⟨?_, h⟩
      intro b hb
      rcases List.mem_cons.mp hb with rfl | hb2
      · exact hc
      · exact le_trans (hz b hb2) hc
    · rw [if_neg hc]
      refine List.pairwise_cons.mpr ⟨?_, ih ht⟩
      intro b hb
      rcases List.mem_cons.mp ((perm_insertDesc x t).mem_iff.mp hb) with rfl | hb2
      · exact le_of_lt (not_le.mp hc)
      · exact hz b hb2

theorem pairwise_sortDesc (l : List Settlement) :
    List.Pairwise (fun a b => b.amount ≤ a.amount) (sortDesc l) := by
  induction l with
  | nil => simp [sortDesc]
  | cons x t ih =>
    rw [sortDesc]
    exact pairwise_insertDesc x (sortDesc t) ih

theorem filter_insertDesc (x : Settlement) (l : List Settlement) (q : ℚ) :
    (insertDesc x l).filter (fun s => s.amount = q) =
      (x :: l).filter (fun s => s.amount = q) := by
  induction l with
  | nil => rfl
  | cons y t ih =>
    rw [insertDesc]
    by_cases hc : y.amount ≤ x.amount
    · rw [if_pos hc]
    · rw [if_neg hc]
      by_cases hy : y.amount = q
      · by_cases hx : x.amount = q
        · exact absurd (le_of_eq (hy.trans hx.symm)) hc
        · simp [List.filter_cons, hy, hx, ih]
      · simp [List.filter_cons, hy, ih]

theorem filter_sortDesc (l : List Settlement) (q : ℚ) :
    (sortDesc l).filter (fun s => s.amount = q) =
      l.filter (fun s => s.amount = q) := by
  induction l with
  | nil => rfl
  | cons x t ih =>
    rw [sortDesc, filter_insertDesc, List.filter_cons, List.filter_cons, ih]

theorem filter_map_eq_singleton {α : Type} (f : α → String) (l : List α)
    (hnd : (l.map f).Nodup) (x : α) (hx : x ∈ l) :
    l.filter (fun a => f a = f x) = [x] := by
  induction l with
  | nil => cases hx
  | cons y t ih =>
    rw [List.map_cons, List.nodup_cons] at hnd
    rcases List.mem_cons.mp hx with heq | hxt
    · subst heq
      rw [List.filter_cons, if_pos (by simp)]
      have hnil : t.filter (fun a => decide (f a = f x)) = [] := by
        rw [List.filter_eq_nil_iff]
        intro a ha
        simp only [decide_eq_true_eq]
        intro hfa
        exact hnd.1 (hfa ▸ List.mem_map_of_mem f ha)
      rw [hnil]
    · have hne : ¬(f y = f x) := by
        intro hEq
        exact hnd.1 (hEq ▸ List.mem_map_of_mem f hxt)
      rw [List.filter_cons, if_neg (by simp [hne])]
      exact ih hnd.2 hxt

theorem filter_member_eq_singleton (l : List SplitDetail)
    (hnd : (l.map (fun s => jsTrim s.member)).Nodup) (x : SplitDetail)
    (hx : x ∈ l) :
    l.filter (fun a => jsTrim a.member = jsTrim x.member) = [x] := by
  have h := filter_map_eq_singleton (fun s => jsTrim s.member) l hnd x hx
  simpa using h

theorem processExpense_settled (viewer : String) (m : List (String × ℚ))
    (e : Expense) (hs : e.settled = true) : processExpense viewer m e = m := by
  unfold processExpense
  rw [hs]
  simp

theorem processExpense_equal_payer (viewer : String) (m : List (String × ℚ))
    (e : Expense) (hs : e.settled = false) (ht : e.split_type = SplitType.equal)
    (hp : e.paid_by = viewer) :
    processExpense viewer m e =
      e.members.foldl
        (equalStep viewer e.paid_by true (e.amount / (e.members.length : ℚ))) m := by
  unfold processExpense
  rw [hs, ht, hp]
  simp

theorem processExpense_equal_other (viewer : String) (m : List (String × ℚ))
    (e : Expense) (hs : e.settled = false) (ht : e.split_type = SplitType.equal)
    (hp : e.paid_by ≠ viewer) :
    processExpense viewer m e =
      e.members.foldl
        (equalStep viewer e.paid_by false (e.amount / (e.members.length : ℚ))) m := by
  unfold processExpense
  rw [hs, ht, show (e.paid_by == viewer) = false by simp [hp]]
  simp

theorem processExpense_custom_payer (viewer : String) (m : List (String × ℚ))
    (e : Expense) (details : List SplitDetail)
    (hs : e.settled = false) (ht : e.split_type = SplitType.custom)
    (hd : e.split_details = some details) (hp : e.paid_by = viewer) :
    processExpense viewer m e = details.foldl (customPayerStep viewer) m := by
  unfold processExpense
  rw [hs, ht, hd, hp]
  simp

theorem processExpense_custom_other (viewer : String) (m : List (String × ℚ))
    (e : Expense) (details : List SplitDetail)
    (hs : e.settled = false) (ht : e.split_type = SplitType.custom)
    (hd : e.split_details = some details) (hp : e.paid_by ≠ viewer) :
    processExpense viewer m e =
      details.foldl (customOtherStep viewer (jsTrim e.paid_by)) m := by
  unfold processExpense
  rw [hs, ht, hd, show (e.paid_by == viewer) = false by simp [hp]]
  simp

/-- C1: for a non-settled Equal-split expense whose payer is the viewer (the
trimmed member names being pairwise distinct, groupMembers being a set of
display names), processing the expense adds amount / memberCount to the
balance of every group member other than the viewer, and changes no other
balance. -/
theorem c1_equal_payer_credits_members
    (viewer : String) (e : Expense) (m : List (String × ℚ))
    (hs : e.settled = false) (ht : e.split_type = SplitType.equal)
    (hp : e.paid_by = viewer)
    (hnd : (e.members.map jsTrim).Nodup) :
    (∀ mem ∈ e.members, jsTrim mem ≠ jsTrim viewer →
        mapGetD (processExpense viewer m e) (jsTrim mem) =
          mapGetD m (jsTrim mem) + e.amount / (e.members.length : ℚ)) ∧
    (∀ key : String,
        key ∉ (e.members.filter (fun x => jsTrim x ≠ jsTrim viewer)).map jsTrim →
        mapGetD (processExpense viewer m e) key = mapGetD m key) := by
  rw [processExpense_equal_payer viewer m e hs ht hp]
  constructor
  · intro mem hmem hne
    rw [equalFold_payer_getD]
    have hfc : e.members.filter
          (fun x => decide (jsTrim x = jsTrim mem ∧ jsTrim x ≠ jsTrim viewer)) =
        e.members.filter (fun x => decide (jsTrim x = jsTrim mem)) := by
      apply List.filter_congr
      intro x hx
      simp only [decide_eq_decide]
      constructor
      · exact fun h => h.1
      · intro h
        exact ⟨h, h ▸ hne⟩
    rw [hfc, filter_map_eq_singleton jsTrim e.members hnd mem hmem]
    simp
  · intro key hkey
    rw [equalFold_payer_getD]
    have hzero : e.members.filter
        (fun x => decide (jsTrim x = key ∧ jsTrim x ≠ jsTrim viewer)) = [] := by
      rw [List.filter_eq_nil_iff]
      intro a ha
      simp only [decide_eq_true_eq]
      intro hand
      exact hkey (List.mem_map.mpr
        ⟨a, List.mem_filter.mpr ⟨ha, by simp [hand.2]⟩, hand.1⟩)
    rw [hzero]
    simp

/-- C1 witness: viewer Alice pays a 30-unit Equal-split expense in the
three-member group Alice, Bob, Carol: Bob gains 10, and the aggregation
returns totalOwedToViewer 20 with settlements Bob 10 owed, Carol 10 owed. -/
theorem c1_witness :
    mapGetD (processExpense "Alice" [] exAlice) (jsTrim "Bob") =
        mapGetD [] (jsTrim "Bob") + exAlice.amount / ((exAlice.members.length : ℕ) : ℚ) ∧
    computeSettlements [exAlice] "Alice" =
      (20, 0, [⟨"Bob", 10, .owed⟩, ⟨"Carol", 10, .owed⟩]) :=
  ⟨(c1_equal_payer_credits_members "Alice" exAlice [] rfl rfl rfl (by decide)).1
      "Bob" (by decide) (by decide), by decide⟩

/-- C2: for a non-settled Custom-split expense whose payer is not the viewer,
with exactly one split entry belonging to the viewer (by trimmed name), the
payer balance is debited by exactly that entry amount, and no other balance
changes: the entries of other members contribute nothing. -/
theorem c2_custom_other_debits_payer
    (viewer : String) (e : Expense) (m : List (String × ℚ))
    (details : List SplitDetail) (s : SplitDetail)
    (hs : e.settled = false) (ht : e.split_type = SplitType.custom)
    (hd : e.split_details = some details)
    (hp : e.paid_by ≠ viewer)
    (hone : details.filter (fun x => jsTrim x.member = jsTrim viewer) = [s]) :
    mapGetD (processExpense viewer m e) (jsTrim e.paid_by) =
        mapGetD m (jsTrim e.paid_by) - s.amount ∧
    (∀ key : String, key ≠ jsTrim e.paid_by →
        mapGetD (processExpense viewer m e) key = mapGetD m key) := by
  rw [processExpense_custom_other viewer m e details hs ht hd hp]
  constructor
  · rw [customOtherFold_getD_payer, hone]
    simp
  · intro key hk
    exact customOtherFold_getD_ne viewer _ details key hk m

/-- C2 witness: Dave pays a 50-unit Custom-split expense with splitDetails
Alice 20, Dave 30; for viewer Alice, the balance with Dave becomes minus 20
and the aggregation returns totalViewerOwes 20. -/
theorem c2_witness :
    mapGetD (processExpense "Alice" [] exDave) (jsTrim "Dave") =
        mapGetD [] (jsTrim "Dave") - 20 ∧
    computeSettlements [exDave] "Alice" = (0, 20, [⟨"Dave", 20, .owing⟩]) :=
  ⟨(c2_custom_other_debits_payer "Alice" exDave []
      [⟨"Alice", 20⟩, ⟨"Dave", 30⟩] ⟨"Alice", 20⟩ rfl rfl rfl
      (by decide) (by decide)).1, by decide⟩

/-- C3: for a non-settled Custom-split expense whose payer is the viewer (the
trimmed split-member names being pairwise distinct), every split entry whose
member is not the viewer credits that member by exactly the entry amount,
and no other balance changes: in particular an entry of the viewer itself
contributes nothing. -/
theorem c3_custom_payer_credits_each
    (viewer : String) (e : Expense) (m : List (String × ℚ))
    (details : List SplitDetail)
    (hs : e.settled = false) (ht : e.split_type = SplitType.custom)
    (hd : e.split_details = some details)
    (hp : e.paid_by = viewer)
    (hnd : (details.map (fun s => jsTrim s.member)).Nodup) :
    (∀ s ∈ details, jsTrim s.member ≠ jsTrim viewer →
        mapGetD (processExpense viewer m e) (jsTrim s.member) =
          mapGetD m (jsTrim s.member) + s.amount) ∧
    (∀ key : String,
        key ∉ (details.filter (fun s => jsTrim s.member ≠ jsTrim viewer)).map
            (fun s => jsTrim s.member) →
        mapGetD (processExpense viewer m e) key = mapGetD m key) := by
  rw [processExpense_custom_payer viewer m e details hs ht hd hp]
  constructor
  · intro s hsmem hne
    rw [customPayerFold_getD]
    have hfc : details.filter
          (fun x => decide (jsTrim x.member = jsTrim s.member ∧
            jsTrim x.member ≠ jsTrim viewer)) =
        details.filter (fun x => decide (jsTrim x.member = jsTrim s.member)) := by
      apply List.filter_congr
      intro x hx
      simp only [decide_eq_decide]
      constructor
      · exact fun h => h.1
      · intro h
        exact ⟨h, h ▸ hne⟩
    rw [hfc, filter_member_eq_singleton details hnd s hsmem]
    simp
  · intro key hkey
    rw [customPayerFold_getD]
    have hzero : details.filter
        (fun x => decide (jsTrim x.member = key ∧
          jsTrim x.member ≠ jsTrim viewer)) = [] := by
      rw [List.filter_eq_nil_iff]
      intro a ha
      simp only [decide_eq_true_eq]
      intro hand
      exact hkey (List.mem_map.mpr
        ⟨a, List.mem_filter.mpr ⟨ha, by simp [hand.2]⟩, hand.1⟩)
    rw [hzero]
    simp

/-- The Erin example: a Custom-split expense paid by the viewer Erin, with
shares for Frank and Erin herself. -/
def exErin : Expense :=
  ⟨40, "Erin", .custom, some [⟨"Frank", 15⟩, ⟨"Erin", 25⟩], ["Erin", "Frank"], false⟩

/-- C3 witness: viewer Erin pays a Custom-split expense with entries Frank 15
and Erin 25: Frank is credited 15 and the Erin entry contributes nothing. -/
theorem c3_witness :
    mapGetD (processExpense "Erin" [] exErin) (jsTrim "Frank") =
        mapGetD [] (jsTrim "Frank") + 15 ∧
    computeBalances [exErin] "Erin" = [("Frank", 15)] :=
  ⟨(c3_custom_payer_credits_each "Erin" exErin []
      [⟨"Frank", 15⟩, ⟨"Erin", 25⟩] rfl rfl rfl rfl (by decide)).1
      ⟨"Frank", 15⟩ (by decide) (by decide), by decide⟩

/-- C4: after the full aggregation pass, totalOwedToViewer is the sum of the
strictly positive balance values and totalViewerOwes is the sum of the
absolute values of the strictly negative balance values. -/
theorem c4_totals_from_balances (expenses : List Expense) (viewer : String) :
    (computeSettlements expenses viewer).1 =
        sumPos (computeBalances expenses viewer) ∧
    (computeSettlements expenses viewer).2.1 =
        sumNegAbs (computeBalances expenses viewer) := by
  have h := settleFold_char (computeBalances expenses viewer) [] 0 0
  constructor
  · show (settlePhase (computeBalances expenses viewer)).2.2 = _
    simp only [settlePhase, h]
    simp
  · show (settlePhase (computeBalances expenses viewer)).2.1 = _
    simp only [settlePhase, h]
    simp

theorem computeSettlements_list (expenses : List Expense) (viewer : String) :
    (computeSettlements expenses viewer).2.2 =
      sortDesc (settlementsOf (computeBalances expenses viewer)) := by
  show sortDesc (settlePhase (computeBalances expenses viewer)).1 = _
  simp only [settlePhase, settleFold_char (computeBalances expenses viewer) [] 0 0]
  simp

/-- C5: the settlement list contains exactly one entry per non-zero balance
entry (a permutation of the encounter-order list), no zero-amount entries,
is sorted by amount descending, and entries with equal amounts keep their
encounter order: filtering at any fixed amount gives the encounter-order
sublist. -/
theorem c5_settlements_sorted_stable (expenses : List Expense) (viewer : String) :
    ((computeSettlements expenses viewer).2.2).Perm
        (settlementsOf (computeBalances expenses viewer)) ∧
    List.Pairwise (fun a b => b.amount ≤ a.amount)
        (computeSettlements expenses viewer).2.2 ∧
    (∀ q : ℚ, ((computeSettlements expenses viewer).2.2).filter
          (fun s => s.amount = q) =
        (settlementsOf (computeBalances expenses viewer)).filter
          (fun s => s.amount = q)) ∧
    (∀ s ∈ (computeSettlements expenses viewer).2.2, s.amount ≠ 0) := by
  rw [computeSettlements_list]
  refine ⟨perm_sortDesc _, pairwise_sortDesc _, fun q => filter_sortDesc _ q, ?_⟩
  intro s hs
  have hmem := (perm_sortDesc _).mem_iff.mp hs
  rcases List.mem_map.mp hmem with ⟨p, hp, rfl⟩
  have hv : p.2 ≠ 0 := by
    have h2 := (List.mem_filter.mp hp).2
    simpa using h2
  simpa using abs_ne_zero.mpr hv

theorem foldl_processExpense_filter (viewer : String) (expenses : List Expense) :
    ∀ acc, expenses.foldl (processExpense viewer) acc =
      (expenses.filter (fun e => e.settled = false)).foldl (processExpense viewer) acc := by
  induction expenses with
  | nil => intro acc; rfl
  | cons e rest ih =>
    intro acc
    rw [List.foldl_cons, List.filter_cons]
    by_cases hs : e.settled
    · rw [processExpense_settled viewer acc e hs, if_neg (by simp [hs]), ih]
    · rw [if_pos (by simp [hs]), List.foldl_cons, ih]

theorem mapSet_keys (acc : List (String × ℚ)) (k : String) (v : ℚ)
    (P : String → Prop) (hacc : ∀ kv ∈ acc, P kv.1) (hk : P k) :
    ∀ kv ∈ mapSet acc k v, P kv.1 := by
  intro kv hkv
  obtain ⟨k₂, v₂⟩ := kv
  rcases mem_mapSet acc k v k₂ v₂ hkv with hEq | hIn
  · rw [hEq]
    exact hk
  · exact hacc _ hIn

theorem processExpense_keyProp (viewer : String) (m : List (String × ℚ))
    (e : Expense) (P : String → Prop)
    (hacc : ∀ kv ∈ m, P kv.1)
    (hTrimKey : ∀ s : String, jsTrim s ≠ jsTrim viewer → P (jsTrim s))
    (hPayerKey : e.settled = false → e.split_type = SplitType.custom →
      e.paid_by ≠ viewer → P (jsTrim e.paid_by)) :
    ∀ kv ∈ processExpense viewer m e, P kv.1 := by
  by_cases hs : e.settled
  · rw [processExpense_settled viewer m e hs]
    exact hacc
  · have hs' : e.settled = false := by simpa using hs
    cases htype : e.split_type with
    | equal =>
      have hstep : ∀ (b : Bool) acc mem, (∀ kv ∈ acc, P kv.1) →
          ∀ kv ∈ equalStep viewer e.paid_by b
            (e.amount / (e.members.length : ℚ)) acc mem, P kv.1 := by
        intro b acc mem hPacc
        unfold equalStep
        by_cases h₁ : jsTrim mem = jsTrim viewer
        · rw [if_pos h₁]
          exact hPacc
        · rw [if_neg h₁]
          cases b with
          | true =>
            rw [if_pos rfl]
            exact mapSet_keys _ _ _ P hPacc (hTrimKey mem h₁)
          | false =>
            rw [if_neg (by simp)]
            by_cases h₂ : jsTrim e.paid_by = jsTrim mem
            · rw [if_pos h₂]
              exact mapSet_keys _ _ _ P hPacc (hTrimKey mem h₁)
            · rw [if_neg h₂]
              exact hPacc
      by_cases hp : e.paid_by = viewer
      · rw [processExpense_equal_payer viewer m e hs' htype hp]
        exact foldl_preserves _ (fun mm => ∀ kv ∈ mm, P kv.1) e.members
          (fun acc a _ hPacc => hstep true acc a hPacc) m hacc
      · rw [processExpense_equal_other viewer m e hs' htype hp]
        exact foldl_preserves _ (fun mm => ∀ kv ∈ mm, P kv.1) e.members
          (fun acc a _ hPacc => hstep false acc a hPacc) m hacc
    | custom =>
      cases hd : e.split_details with
      | none =>
        have hnone : processExpense viewer m e = m := by
          unfold processExpense
          rw [hs', htype, hd]
          simp
        rw [hnone]
        exact hacc
      | some details =>
        by_cases hp : e.paid_by = viewer
        · rw [processExpense_custom_payer viewer m e details hs' htype hd hp]
          refine foldl_preserves _ (fun mm => ∀ kv ∈ mm, P kv.1) details ?_ m hacc
          intro acc s _ hPacc
          unfold customPayerStep
          by_cases h₁ : jsTrim s.member ≠ jsTrim viewer
          · rw [if_pos h₁]
            exact mapSet_keys _ _ _ P hPacc (hTrimKey s.member h₁)
          · rw [if_neg h₁]
            exact hPacc
        · rw [processExpense_custom_other viewer m e details hs' htype hd hp]
          refine foldl_preserves _ (fun mm => ∀ kv ∈ mm, P kv.1) details ?_ m hacc
          intro acc s _ hPacc
          unfold customOtherStep
          by_cases h₁ : jsTrim s.member = jsTrim viewer
          · rw [if_pos h₁]
            exact mapSet_keys _ _ _ P hPacc (hPayerKey hs' htype hp)
          · rw [if_neg h₁]
            exact hPacc

/-- C6: the aggregation output on the full expense list equals the output on
the sublist of non-settled expenses: a settled expense never affects any
balance, total, or settlement entry. -/
theorem c6_settled_excluded (expenses : List Expense) (viewer : String) :
    computeSettlements expenses viewer =
      computeSettlements (expenses.filter (fun e => e.settled = false)) viewer := by
  have h : computeBalances expenses viewer =
      computeBalances (expenses.filter (fun e => e.settled = false)) viewer :=
    foldl_processExpense_filter viewer expenses []
  unfold computeSettlements
  rw [h]

/-- C7 counterexample expense: Equal split paid by Bob, who is among the
group members, while the viewer Alice is not. -/
def exC7 : Expense := ⟨30, "Bob", .equal, none, ["Bob", "Carol"], false⟩

/-- C7 counterexample: for viewer Alice, who is neither the payer nor among
the groupMembers of this non-settled Equal-split expense, processing the
expense still records a balance entry: the payer Bob is debited 15, so the
claim that no entry is recorded fails. -/
theorem c7_counterexample :
    exC7.settled = false ∧ exC7.split_type = SplitType.equal ∧
    exC7.paid_by ≠ "Alice" ∧ "Alice" ∉ exC7.members ∧
    processExpense "Alice" [] exC7 = [("Bob", -15)] := by decide

/-- C7 amended: for a non-settled Equal-split expense where the viewer is not
the payer, only the trimmed payer name can receive an entry; and when no
trimmed group member equals the trimmed payer (except members matching the
trimmed viewer, which are skipped), the expense records nothing — whether or
not the viewer is among the groupMembers. -/
theorem c7_amended_only_payer_recorded
    (viewer : String) (e : Expense) (m : List (String × ℚ))
    (hs : e.settled = false) (ht : e.split_type = SplitType.equal)
    (hp : e.paid_by ≠ viewer) :
    (∀ key : String, key ≠ jsTrim e.paid_by →
        mapGetD (processExpense viewer m e) key = mapGetD m key) ∧
    ((∀ mem ∈ e.members, jsTrim mem = jsTrim e.paid_by → jsTrim mem = jsTrim viewer) →
        processExpense viewer m e = m) := by
  constructor
  · intro key hk
    rw [processExpense_equal_other viewer m e hs ht hp, equalFold_other_getD]
    have hzero : e.members.filter
        (fun mem => decide (jsTrim mem = key ∧ jsTrim mem ≠ jsTrim viewer ∧
          jsTrim e.paid_by = jsTrim mem)) = [] := by
      rw [List.filter_eq_nil_iff]
      intro a ha
      simp only [decide_eq_true_eq]
      intro hand
      apply hk
      rw [← hand.1]
      exact hand.2.2.symm
    rw [hzero]
    simp
  · intro hnone
    rw [processExpense_equal_other viewer m e hs ht hp]
    apply foldl_eq_self
    intro acc mem hmem
    by_cases h₁ : jsTrim mem = jsTrim viewer
    · simp [equalStep, h₁]
    · have h₂ : jsTrim e.paid_by ≠ jsTrim mem := by
        intro hEq
        exact h₁ (hnone mem hmem hEq.symm)
      simp [equalStep, h₁, h₂]

/-- Witness expense for the amended C7: the payer Bob is not among the group
members, so nothing is recorded. -/
def exC7b : Expense := ⟨30, "Bob", .equal, none, ["Carol", "Dan"], false⟩

/-- C7 witness: the amended statement at a concrete input: an Equal-split
expense paid by an outsider records nothing for viewer Alice. -/
theorem c7_witness :
    processExpense "Alice" [("Xena", 5)] exC7b = [("Xena", 5)] :=
  (c7_amended_only_payer_recorded "Alice" exC7b [("Xena", 5)] rfl rfl
    (by decide)).2 (by decide)

/-- C8: an Equal-split expense with an empty groupMembers list is skipped
entirely: the balance map is unchanged (so the division by the zero member
count is never observable in the output), and the aggregation output of any
expense list containing the expense equals the output without it. -/
theorem c8_empty_members_skipped (viewer : String) (e : Expense)
    (ht : e.split_type = SplitType.equal) (hm : e.members = []) :
    (∀ m, processExpense viewer m e = m) ∧
    (∀ pre post : List Expense,
        computeSettlements (pre ++ e :: post) viewer =
          computeSettlements (pre ++ post) viewer) := by
  have hproc : ∀ m, processExpense viewer m e = m := by
    intro m
    by_cases hs : e.settled
    · exact processExpense_settled viewer m e hs
    · unfold processExpense
      rw [show e.settled = false by simpa using hs, ht, hm]
      simp
  refine ⟨hproc, ?_⟩
  intro pre post
  have hbal : computeBalances (pre ++ e :: post) viewer =
      computeBalances (pre ++ post) viewer := by
    unfold computeBalances
    rw [List.foldl_append, List.foldl_append, List.foldl_cons, hproc]
  unfold computeSettlements
  rw [hbal]

/-- Witness expense for C8: an Equal split over an empty member list. -/
def exEmpty : Expense := ⟨40, "Zed", .equal, none, [], false⟩

/-- C8 witness: the empty-group Equal-split expense changes nothing and its
presence in a list does not change the aggregation output. -/
theorem c8_witness :
    processExpense "Alice" [("Bob", 3)] exEmpty = [("Bob", 3)] ∧
    computeSettlements [exEmpty] "Alice" = computeSettlements [] "Alice" :=
  ⟨(c8_empty_members_skipped "Alice" exEmpty rfl rfl).1 [("Bob", 3)],
   (c8_empty_members_skipped "Alice" exEmpty rfl rfl).2 [] []⟩

/-- C9 counterexample expense: Custom split whose payer name is the viewer
name with a trailing space, with a split entry for the viewer. -/
def exC9 : Expense :=
  ⟨50, "Alice ", .custom, some [⟨"Alice", 20⟩], ["Alice", "Alice "], false⟩

/-- C9 counterexample: for viewer Alice, aggregating this single expense
stores the key "Alice" — the viewer's own name — in the balance map, and the
settlement list names the viewer, so the claimed invariant fails. -/
theorem c9_counterexample :
    computeBalances [exC9] "Alice" = [("Alice", -20)] ∧
    (computeSettlements [exC9] "Alice").2.2 = [⟨"Alice", 20, .owing⟩] := by
  decide

/-- C9 amended: provided every non-settled Custom-split expense whose trimmed
payer name equals the trimmed viewer name has its payer verbatim equal to the
viewer, the viewer's name never appears as a balance-map key, and hence never
as a settlement-entry name. -/
theorem c9_amended_viewer_never_a_key
    (expenses : List Expense) (viewer : String)
    (h : ∀ e ∈ expenses, e.settled = false → e.split_type = SplitType.custom →
        jsTrim e.paid_by = jsTrim viewer → e.paid_by = viewer) :
    (∀ kv ∈ computeBalances expenses viewer, kv.1 ≠ viewer) ∧
    (∀ s ∈ (computeSettlements expenses viewer).2.2, s.name ≠ viewer) := by
  have hbal : ∀ kv ∈ computeBalances expenses viewer, kv.1 ≠ viewer := by
    unfold computeBalances
    refine foldl_preserves (processExpense viewer)
      (fun mm => ∀ kv ∈ mm, kv.1 ≠ viewer) expenses ?_ [] (by simp)
    intro acc e hemem hPacc
    refine processExpense_keyProp viewer acc e (fun s => s ≠ viewer) hPacc ?_ ?_
    · intro s hne hEq
      apply hne
      rw [← hEq, jsTrim_idem]
    · intro hs' htype hp hEq
      have h1 : jsTrim e.paid_by = jsTrim viewer := by
        rw [← hEq, jsTrim_idem]
      exact hp (h e hemem hs' htype h1)
  refine ⟨hbal, ?_⟩
  intro s hs
  rw [computeSettlements_list] at hs
  have hmem := (perm_sortDesc _).mem_iff.mp hs
  rcases List.mem_map.mp hmem with ⟨p, hp, rfl⟩
  exact hbal p (List.mem_filter.mp hp).1

/-- C9 witness: the amended statement at a concrete input: in the Dave
example the only balance key is "Dave", which is not the viewer Alice. -/
theorem c9_witness :
    (("Dave", (-20 : ℚ)) ∈ computeBalances [exDave] "Alice") ∧
    ("Dave" : String) ≠ "Alice" :=
  ⟨by decide,
   (c9_amended_viewer_never_a_key [exDave] "Alice" (by decide)).1
     ("Dave", -20) (by decide)⟩

/-- C10: every key of the balance map equals its own trim: all insertion
paths (Equal-split members, Custom-split payer-path members, Custom-split
non-payer payer) trim the name first, so names differing only in surrounding
whitespace are aggregated into a single balance entry. -/
theorem c10_keys_trimmed (expenses : List Expense) (viewer : String) :
    ∀ kv ∈ computeBalances expenses viewer, jsTrim kv.1 = kv.1 := by
  unfold computeBalances
  refine foldl_preserves (processExpense viewer)
    (fun mm => ∀ kv ∈ mm, jsTrim kv.1 = kv.1) expenses ?_ [] (by simp)
  intro acc e hemem hPacc
  exact processExpense_keyProp viewer acc e (fun s => jsTrim s = s) hPacc
    (fun s _ => jsTrim_idem s) (fun _ _ _ => jsTrim_idem e.paid_by)

/-- Witness expenses for C10: two Equal-split expenses naming Bob with and
without surrounding whitespace. -/
def exB1 : Expense := ⟨10, "Alice", .equal, none, ["Alice", "Bob"], false⟩

/-- Second witness expense for C10, with whitespace around the name Bob. -/
def exB2 : Expense := ⟨10, "Alice", .equal, none, ["Alice", " Bob "], false⟩

/-- C10 witness: the key "Dave" of the Dave example equals its own trim, and
the two Bob spellings aggregate into a single 10-unit balance entry. -/
theorem c10_witness :
    jsTrim "Dave" = "Dave" ∧
    computeBalances [exB1, exB2] "Alice" = [("Bob", 10)] :=
  ⟨c10_keys_trimmed [exDave] "Alice" ("Dave", -20) (by decide), by decide⟩
